import Mathlib

/-!
Verification of the scalar reverse-mode autodiff engine in
micrograd/engine.py (class Value).

The engine is embedded shallowly with an arena: every Value object created
by the Python code becomes an entry of a list of nodes, identified by its
index, which models Python object identity (nodes are compared by identity
in the visited set of build_topo).  Floats are modelled as rationals; the
claims under study only involve exact float arithmetic.  Python ** is used
by the engine only with numeric constant exponents; it is modelled on
integer exponents by zpow (the exponents appearing in the repository and
in the claims are integers).

Field correspondence with Value.__init__:
  data  : self.data
  grad  : self.grad                (starts at 0.0)
  label : self._label
  prev  : self._prev = set(_prev)  (a Python set; modelled as a canonical
                                    duplicate-free list, List.dedup of the
                                    construction tuple, since only
                                    membership in the set is ever used)
  op    : self._op
  bop   : self._backward           (the per-node backward closure; it
                                    captures the original operand tuple,
                                    before set() deduplication, so it is
                                    recorded separately from prev)
-/

namespace Micrograd

/-- The backward closure stored in a node: which rule runs and which
operand indices it captured.  Value.__init__ installs the trivial closure
(lambda: None, here bnone); each operation overwrites it. -/
inductive BOp where
  | bnone : BOp
  | badd (i j : Nat) : BOp
  | bmul (i j : Nat) : BOp
  | bpow (i : Nat) (p : ℤ) : BOp
  | brelu (i : Nat) : BOp
deriving DecidableEq

/-- One Value object, as laid out by Value.__init__. -/
structure Value where
  data : ℚ
  grad : ℚ
  label : String
  prev : List Nat
  op : String
  bop : BOp
deriving DecidableEq

instance : Inhabited Value := ⟨⟨0, 0, "", [], "", .bnone⟩⟩

/-- The heap of Value objects created so far; a node is its index. -/
abbrev Arena := List Value

/-- Dereference a node id (total, with a default for out-of-range ids;
all verified runs stay in range). -/
def getNode (a : Arena) (i : Nat) : Value := a.getD i default

/-- self.data of node i. -/
def dataOf (a : Arena) (i : Nat) : ℚ := (getNode a i).data

/-- self.grad of node i. -/
def gradOf (a : Arena) (i : Nat) : ℚ := (getNode a i).grad

/-- self._prev of node i. -/
def prevOf (a : Arena) (i : Nat) : List Nat := (getNode a i).prev

/-- The stored backward closure of node i. -/
def bopOf (a : Arena) (i : Nat) : BOp := (getNode a i).bop

/-- The assignment self.grad = g. -/
def setGrad (a : Arena) (i : Nat) (g : ℚ) : Arena :=
  a.set i { getNode a i with grad := g }

/-- The statement self.grad += c. -/
def addGrad (a : Arena) (i : Nat) (c : ℚ) : Arena :=
  setGrad a i (gradOf a i + c)

/-- Value(x): leaf construction with empty _prev and zero gradient. -/
def leaf (a : Arena) (x : ℚ) : Arena × Nat :=
  (a ++ [⟨x, 0, "", [], "", .bnone⟩], a.length)

/-- Value.__add__ on two nodes: out = Value(self.data + other.data,
_prev=(self, other), _op=plus); the closure adds 1 * out.grad to each
captured operand. -/
def add (a : Arena) (i j : Nat) : Arena × Nat :=
  (a ++ [⟨dataOf a i + dataOf a j, 0, "", [i, j].dedup, "+", .badd i j⟩], a.length)

/-- Value.__add__ with a numeric literal on the right: the literal is
wrapped into a fresh leaf first (other = Value(other)). -/
def addC (a : Arena) (i : Nat) (c : ℚ) : Arena × Nat :=
  let p := leaf a c
  add p.1 i p.2

/-- Value.__mul__ on two nodes. -/
def mul (a : Arena) (i j : Nat) : Arena × Nat :=
  (a ++ [⟨dataOf a i * dataOf a j, 0, "", [i, j].dedup, "*", .bmul i j⟩], a.length)

/-- Value.__mul__ with a numeric literal on the right. -/
def mulC (a : Arena) (i : Nat) (c : ℚ) : Arena × Nat :=
  let p := leaf a c
  mul p.1 i p.2

/-- Value.__pow__ with a numeric constant exponent. -/
def pow (a : Arena) (i : Nat) (p : ℤ) : Arena × Nat :=
  (a ++ [⟨dataOf a i ^ p, 0, "", [i].dedup, "**" ++ toString p, .bpow i p⟩], a.length)

/-- Value.relu: out = Value(max(0, self.data), _prev=(self,), _op=ReLU). -/
def relu (a : Arena) (i : Nat) : Arena × Nat :=
  (a ++ [⟨max 0 (dataOf a i), 0, "", [i].dedup, "ReLU", .brelu i⟩], a.length)

/-- Value.__neg__: self * -1 (the literal -1 is wrapped into a leaf). -/
def neg (a : Arena) (i : Nat) : Arena × Nat :=
  mulC a i (-1)

/-- Value.__sub__: self + (-other). -/
def sub (a : Arena) (i j : Nat) : Arena × Nat :=
  let p := neg a j
  add p.1 i p.2

/-- Value.__rsub__, reached by the Python expression c - node: the source
returns self + (-other), where other is the literal c. -/
def rsub (a : Arena) (i : Nat) (c : ℚ) : Arena × Nat :=
  addC a i (-c)

/-- Value.__truediv__: self * (other ** -1). -/
def truediv (a : Arena) (i j : Nat) : Arena × Nat :=
  let p := pow a j (-1)
  mul p.1 i p.2

/-- Value.__rtruediv__, reached by c / node: other * (self ** -1); the
number-times-node product goes through Value.__rmul__, hence
(self ** -1) * other with other wrapped into a leaf. -/
def rtruediv (a : Arena) (i : Nat) (c : ℚ) : Arena × Nat :=
  let p := pow a i (-1)
  mulC p.1 p.2 c

/-- A Python operand as seen by the isinstance tests of the dynamic
operator protocol: a Value node, an int/float literal, or anything else
(ty is the rendered type name used in the error message). -/
inductive PyVal where
  | node (i : Nat) : PyVal
  | num (x : ℚ) : PyVal
  | other (ty : String) : PyVal
deriving DecidableEq

/-- A Python exponent for __pow__: numeric constants are modelled as
integers (see the header note). -/
inductive PyExp where
  | node (i : Nat) : PyExp
  | num (p : ℤ) : PyExp
  | other (ty : String) : PyExp
deriving DecidableEq

/-- Value.__add__ with its dynamic operand checks. -/
def addDyn (a : Arena) (i : Nat) (other : PyVal) : Except String (Arena × Nat) :=
  match other with
  | .node j => .ok (add a i j)
  | .num x => .ok (addC a i x)
  | .other ty =>
      .error ("Can\x27t add an instance of type Value with an instance of type " ++ ty)

/-- Value.__mul__ with its dynamic operand checks. -/
def mulDyn (a : Arena) (i : Nat) (other : PyVal) : Except String (Arena × Nat) :=
  match other with
  | .node j => .ok (mul a i j)
  | .num x => .ok (mulC a i x)
  | .other ty =>
      .error ("Can\x27t multiply an instance of type Value with an instance of type " ++ ty)

/-- Value.__pow__ with its dynamic exponent check: only int/float
exponents are accepted; a Value exponent is rejected like any other
non-numeric object. -/
def powDyn (a : Arena) (i : Nat) (p : PyExp) : Except String (Arena × Nat) :=
  match p with
  | .node _ =>
      .error ("Can\x27t raise an instance of type Value to an instance of type " ++ "Value")
  | .num q => .ok (pow a i q)
  | .other ty =>
      .error ("Can\x27t raise an instance of type Value to an instance of type " ++ ty)

/-- Invoking v._backward(): the closure pushes scaled contributions onto
the gradients of the operands it captured, statement by statement in
source order. -/
def runBack (a : Arena) (i : Nat) : Arena :=
  match bopOf a i with
  | .bnone => a
  | .badd j k =>
      let a1 := addGrad a j (1 * gradOf a i)
      addGrad a1 k (1 * gradOf a1 i)
  | .bmul j k =>
      let a1 := addGrad a j (dataOf a k * gradOf a i)
      addGrad a1 k (dataOf a1 j * gradOf a1 i)
  | .bpow j p =>
      addGrad a j ((p : ℚ) * dataOf a j ^ (p - 1) * gradOf a i)
  | .brelu j =>
      addGrad a j ((if 0 < dataOf a j then 1 else 0) * gradOf a i)

/-- The visited set and order list of Value.backward. -/
structure TopoSt where
  visited : List Nat
  topo : List Nat
deriving DecidableEq

/-- build_topo(v) of Value.backward: mark v visited, recurse into the
children (the _prev set), then append v.  Recursion in the source is raw;
here it carries fuel, and the termination theorem shows that for
append-only graphs the fuel root+1 used by backward never runs out. -/
def buildTopo (a : Arena) : Nat → Nat → TopoSt → Option TopoSt
  | 0, _, _ => none
  | f + 1, v, st =>
      if v ∈ st.visited then some st
      else do
        let st2 ← (prevOf a v).foldlM (fun s c => buildTopo a f c s) ⟨v :: st.visited, st.topo⟩
        some ⟨st2.visited, st2.topo ++ [v]⟩

/-- Value.backward: build the topological order, seed self.grad = 1, run
every closure once in reverse topological order, return the order list
(and, since the embedding is stateless, the final arena). -/
def backward (a : Arena) (root : Nat) : Option (Arena × List Nat) :=
  match buildTopo a (root + 1) root ⟨[], []⟩ with
  | none => none
  | some st =>
      let a1 := setGrad a root 1
      some (st.topo.reverse.foldl runBack a1, st.topo)

/-- The operand indices captured by a backward closure, in tuple order. -/
def operandsOf : BOp → List Nat
  | .bnone => []
  | .badd i j => [i, j]
  | .bmul i j => [i, j]
  | .bpow i _ => [i]
  | .brelu i => [i]

/-- A node at index idx is well formed when its _prev set is exactly the
set of operands its closure captured and every operand was constructed
strictly before it. -/
def NodeWF (n : Value) (idx : Nat) : Prop :=
  n.prev = (operandsOf n.bop).dedup ∧ ∀ j ∈ operandsOf n.bop, j < idx

instance (n : Value) (idx : Nat) : Decidable (NodeWF n idx) := by
  unfold NodeWF; infer_instance

/-- An arena is well formed when every node is; every graph produced by
the public operations is of this shape (the graph is append-only). -/
def WF (a : Arena) : Prop :=
  ∀ i, i < a.length → NodeWF (getNode a i) i

instance (a : Arena) : Decidable (WF a) := by
  unfold WF; exact Nat.decidableBallLT a.length _

/-- k is reachable from i by repeatedly descending into _prev. -/
inductive Reach (a : Arena) : Nat → Nat → Prop
  | refl (i : Nat) : Reach a i i
  | step {i j k : Nat} : j ∈ prevOf a i → Reach a j k → Reach a i k

/-- The order property of a topological order list: every _prev member of
the entry at position q already occurs at a strictly earlier position. -/
def OrderOK (a : Arena) (l : List Nat) : Prop :=
  ∀ (q j : Nat), l[q]? = some j → ∀ m ∈ prevOf a j, ∃ p : Nat, p < q ∧ l[p]? = some m

/-- The invariant carried through the depth-first traversal.  G lists the
gray nodes: already marked visited but with children still being
processed, i.e. the implicit recursion stack of build_topo. -/
def Inv (a : Arena) (G : List Nat) (st : TopoSt) : Prop :=
  st.topo.Nodup
  ∧ (∀ k ∈ st.visited, k ∈ st.topo ∨ k ∈ G)
  ∧ (∀ k ∈ st.topo, k ∈ st.visited)
  ∧ (∀ k ∈ G, k ∈ st.visited)
  ∧ OrderOK a st.topo
  ∧ (∀ k ∈ G, k ∉ st.topo)

/-- The induction statement for one call build_topo(v) at a given fuel. -/
def NodeSpec (a : Arena) (f : Nat) : Prop :=
  ∀ (v : Nat) (G : List Nat) (st st' : TopoSt),
    v < a.length → (∀ g ∈ G, v < g) → Inv a G st →
    buildTopo a f v st = some st' →
    Inv a G st'
    ∧ (∀ k ∈ st.visited, k ∈ st'.visited)
    ∧ (∃ d, st'.topo = st.topo ++ d ∧ ∀ k ∈ d, k ≤ v ∧ Reach a v k)
    ∧ v ∈ st'.topo

/-- The induction statement for the loop over the children of a node. -/
def ListSpec (a : Arena) (f : Nat) : Prop :=
  ∀ (js : List Nat) (G : List Nat) (st st' : TopoSt),
    (∀ j ∈ js, j < a.length ∧ ∀ g ∈ G, j < g) → Inv a G st →
    js.foldlM (fun s c => buildTopo a f c s) st = some st' →
    Inv a G st'
    ∧ (∀ k ∈ st.visited, k ∈ st'.visited)
    ∧ (∃ d, st'.topo = st.topo ++ d ∧ ∀ k ∈ d, ∃ j ∈ js, k ≤ j ∧ Reach a j k)
    ∧ (∀ j ∈ js, j ∈ st'.topo)

/-- Fuel sufficiency for one call build_topo(v). -/
def NodeTotal (a : Arena) (f : Nat) : Prop :=
  ∀ (v : Nat) (st : TopoSt), v < a.length → v < f → (buildTopo a f v st).isSome

/-- Fuel sufficiency for the loop over the children of a node. -/
def ListTotal (a : Arena) (f : Nat) : Prop :=
  ∀ (js : List Nat) (st : TopoSt), (∀ j ∈ js, j < a.length ∧ j < f) →
    (js.foldlM (fun s c => buildTopo a f c s) st).isSome

/-- The contributions the closure of node i pushes, as (target, amount)
pairs, the amounts read off the state in which the closure starts. -/
def pushes (a : Arena) (i : Nat) : List (Nat × ℚ) :=
  match bopOf a i with
  | .bnone => []
  | .badd j k => [(j, 1 * gradOf a i), (k, 1 * gradOf a i)]
  | .bmul j k => [(j, dataOf a k * gradOf a i), (k, dataOf a j * gradOf a i)]
  | .bpow j p => [(j, (p : ℚ) * dataOf a j ^ (p - 1) * gradOf a i)]
  | .brelu j => [(j, (if 0 < dataOf a j then 1 else 0) * gradOf a i)]

/-- Apply a list of gradient pushes, each a += on the target gradient. -/
def applyPushes (a : Arena) (ps : List (Nat × ℚ)) : Arena :=
  ps.foldl (fun b q => addGrad b q.1 q.2) a

/-- All pushes of a traversal, each read off the state in which its
closure actually runs. -/
def allPushes (a : Arena) : List Nat → List (Nat × ℚ)
  | [] => []
  | i :: rest => pushes a i ++ allPushes (runBack a i) rest

/-- The total contribution pushed onto node k by a list of pushes. -/
def sumFor (k : Nat) (ps : List (Nat × ℚ)) : ℚ :=
  ((ps.filter (fun q => q.1 == k)).map Prod.snd).sum

/-- Modelled from the spec: Negate(b) as the manual expansion
Multiply(b, -1), the literal wrapped into a leaf. -/
def negBySpec (a : Arena) (j : Nat) : Arena × Nat :=
  mulC a j (-1)

/-- Modelled from the spec: the manual expansion Multiply(a, Power(b, -1))
of Divide. -/
def divBySpec (a : Arena) (i j : Nat) : Arena × Nat :=
  let p := pow a j (-1)
  mul p.1 i p.2

/-- Modelled from the spec: the manual expansion Add(a, Negate(b)) of
Subtract. -/
def subBySpec (a : Arena) (i j : Nat) : Arena × Nat :=
  let p := negBySpec a j
  add p.1 i p.2

/-- The end-to-end scenario graph: x = leaf(-2), y = leaf(3),
z = x*y + x.relu().  Ids: x = 0, y = 1, x*y = 2, x.relu() = 3, z = 4. -/
def c3Arena : Arena :=
  (add (relu (mul (leaf (leaf [] (-2)).1 3).1 0 1).1 0).1 2 3).1

-- basic facts about the arena primitives

theorem getNode_append_lt (a : Arena) (l : List Value) {i : Nat} (h : i < a.length) :
    getNode (a ++ l) i = getNode a i := by
  simp [getNode, List.getD_eq_getElem?_getD, List.getElem?_append_left h]

theorem getNode_append_self (a : Arena) (n : Value) :
    getNode (a ++ [n]) a.length = n := by
  simp [getNode, List.getD_eq_getElem?_getD, List.getElem?_concat_length]

theorem length_setGrad (a : Arena) (i : Nat) (g : ℚ) :
    (setGrad a i g).length = a.length := by
  simp [setGrad]

theorem getNode_setGrad_ne {k i : Nat} (h : k ≠ i) (a : Arena) (g : ℚ) :
    getNode (setGrad a i g) k = getNode a k := by
  simp [setGrad, getNode, List.getD_eq_getElem?_getD, List.getElem?_set_ne (Ne.symm h)]

theorem getNode_setGrad_self {i : Nat} {a : Arena} (h : i < a.length) (g : ℚ) :
    getNode (setGrad a i g) i = { getNode a i with grad := g } := by
  simp [setGrad, getNode, List.getD_eq_getElem?_getD, List.getElem?_set_self h]

theorem getNode_setGrad_structure (a : Arena) (i : Nat) (g : ℚ) (k : Nat) :
    (getNode (setGrad a i g) k).data = (getNode a k).data
    ∧ (getNode (setGrad a i g) k).prev = (getNode a k).prev
    ∧ (getNode (setGrad a i g) k).bop = (getNode a k).bop := by
  rcases eq_or_ne k i with rfl | h
  · unfold setGrad getNode
    simp only [List.getD_eq_getElem?_getD, List.getElem?_set_self']
    cases h : a[k]? <;> simp [getNode, List.getD_eq_getElem?_getD, h]
  · rw [getNode_setGrad_ne h]
    exact ⟨rfl, rfl, rfl⟩

theorem dataOf_setGrad (a : Arena) (i : Nat) (g : ℚ) (k : Nat) :
    dataOf (setGrad a i g) k = dataOf a k :=
  (getNode_setGrad_structure a i g k).1

theorem prevOf_setGrad (a : Arena) (i : Nat) (g : ℚ) (k : Nat) :
    prevOf (setGrad a i g) k = prevOf a k :=
  (getNode_setGrad_structure a i g k).2.1

theorem bopOf_setGrad (a : Arena) (i : Nat) (g : ℚ) (k : Nat) :
    bopOf (setGrad a i g) k = bopOf a k :=
  (getNode_setGrad_structure a i g k).2.2

theorem gradOf_setGrad_self {i : Nat} {a : Arena} (h : i < a.length) (g : ℚ) :
    gradOf (setGrad a i g) i = g := by
  simp [gradOf, getNode_setGrad_self h]

theorem gradOf_setGrad_ne {k i : Nat} (h : k ≠ i) (a : Arena) (g : ℚ) :
    gradOf (setGrad a i g) k = gradOf a k := by
  simp [gradOf, getNode_setGrad_ne h]

theorem length_addGrad (a : Arena) (i : Nat) (c : ℚ) :
    (addGrad a i c).length = a.length :=
  length_setGrad _ _ _

theorem dataOf_addGrad (a : Arena) (i : Nat) (c : ℚ) (k : Nat) :
    dataOf (addGrad a i c) k = dataOf a k :=
  dataOf_setGrad _ _ _ _

theorem prevOf_addGrad (a : Arena) (i : Nat) (c : ℚ) (k : Nat) :
    prevOf (addGrad a i c) k = prevOf a k :=
  prevOf_setGrad _ _ _ _

theorem bopOf_addGrad (a : Arena) (i : Nat) (c : ℚ) (k : Nat) :
    bopOf (addGrad a i c) k = bopOf a k :=
  bopOf_setGrad _ _ _ _

theorem gradOf_addGrad_self {i : Nat} {a : Arena} (h : i < a.length) (c : ℚ) :
    gradOf (addGrad a i c) i = gradOf a i + c :=
  gradOf_setGrad_self h _

theorem gradOf_addGrad_ne {k i : Nat} (h : k ≠ i) (a : Arena) (c : ℚ) :
    gradOf (addGrad a i c) k = gradOf a k :=
  gradOf_setGrad_ne h _ _

theorem length_runBack (a : Arena) (i : Nat) :
    (runBack a i).length = a.length := by
  cases hb : bopOf a i <;>
    simp [runBack, hb, length_addGrad]

theorem dataOf_runBack (a : Arena) (i : Nat) (k : Nat) :
    dataOf (runBack a i) k = dataOf a k := by
  cases hb : bopOf a i <;>
    simp [runBack, hb, dataOf_addGrad]

theorem prevOf_runBack (a : Arena) (i : Nat) (k : Nat) :
    prevOf (runBack a i) k = prevOf a k := by
  cases hb : bopOf a i <;>
    simp [runBack, hb, prevOf_addGrad]

theorem bopOf_runBack (a : Arena) (i : Nat) (k : Nat) :
    bopOf (runBack a i) k = bopOf a k := by
  cases hb : bopOf a i <;>
    simp [runBack, hb, bopOf_addGrad]

theorem prevOf_foldl_runBack (l : List Nat) (b : Arena) (k : Nat) :
    prevOf (l.foldl runBack b) k = prevOf b k := by
  induction l generalizing b with
  | nil => rfl
  | cons i t ih => rw [List.foldl_cons, ih, prevOf_runBack]

theorem dataOf_foldl_runBack (l : List Nat) (b : Arena) (k : Nat) :
    dataOf (l.foldl runBack b) k = dataOf b k := by
  induction l generalizing b with
  | nil => rfl
  | cons i t ih => rw [List.foldl_cons, ih, dataOf_runBack]

theorem bopOf_foldl_runBack (l : List Nat) (b : Arena) (k : Nat) :
    bopOf (l.foldl runBack b) k = bopOf b k := by
  induction l generalizing b with
  | nil => rfl
  | cons i t ih => rw [List.foldl_cons, ih, bopOf_runBack]

theorem length_foldl_runBack (l : List Nat) (b : Arena) :
    (l.foldl runBack b).length = b.length := by
  induction l generalizing b with
  | nil => rfl
  | cons i t ih => rw [List.foldl_cons, ih, length_runBack]

-- facts about the node constructors

theorem length_leaf (a : Arena) (x : ℚ) : (leaf a x).1.length = a.length + 1 := by
  simp [leaf]

theorem length_add (a : Arena) (i j : Nat) : (add a i j).1.length = a.length + 1 := by
  simp [add]

theorem length_mul (a : Arena) (i j : Nat) : (mul a i j).1.length = a.length + 1 := by
  simp [mul]

theorem length_pow (a : Arena) (i : Nat) (p : ℤ) : (pow a i p).1.length = a.length + 1 := by
  simp [pow]

theorem length_relu (a : Arena) (i : Nat) : (relu a i).1.length = a.length + 1 := by
  simp [relu]

theorem getNode_leaf_lt (a : Arena) (x : ℚ) {k : Nat} (h : k < a.length) :
    getNode (leaf a x).1 k = getNode a k :=
  getNode_append_lt a _ h

theorem getNode_add_lt (a : Arena) (i j : Nat) {k : Nat} (h : k < a.length) :
    getNode (add a i j).1 k = getNode a k :=
  getNode_append_lt a _ h

theorem getNode_mul_lt (a : Arena) (i j : Nat) {k : Nat} (h : k < a.length) :
    getNode (mul a i j).1 k = getNode a k :=
  getNode_append_lt a _ h

theorem getNode_pow_lt (a : Arena) (i : Nat) (p : ℤ) {k : Nat} (h : k < a.length) :
    getNode (pow a i p).1 k = getNode a k :=
  getNode_append_lt a _ h

theorem getNode_relu_lt (a : Arena) (i : Nat) {k : Nat} (h : k < a.length) :
    getNode (relu a i).1 k = getNode a k :=
  getNode_append_lt a _ h

theorem getNode_addC_lt (a : Arena) (i : Nat) (c : ℚ) {k : Nat} (h : k < a.length) :
    getNode (addC a i c).1 k = getNode a k := by
  show getNode (add (leaf a c).1 i (leaf a c).2).1 k = getNode a k
  rw [getNode_add_lt _ _ _ (by rw [length_leaf]; omega), getNode_leaf_lt a c h]

theorem getNode_mulC_lt (a : Arena) (i : Nat) (c : ℚ) {k : Nat} (h : k < a.length) :
    getNode (mulC a i c).1 k = getNode a k := by
  show getNode (mul (leaf a c).1 i (leaf a c).2).1 k = getNode a k
  rw [getNode_mul_lt _ _ _ (by rw [length_leaf]; omega), getNode_leaf_lt a c h]

theorem dataOf_leaf_out (a : Arena) (x : ℚ) : dataOf (leaf a x).1 (leaf a x).2 = x := by
  simp [leaf, dataOf, getNode_append_self]

theorem dataOf_add_out (a : Arena) (i j : Nat) :
    dataOf (add a i j).1 (add a i j).2 = dataOf a i + dataOf a j := by
  simp [add, dataOf, getNode_append_self]

theorem dataOf_mul_out (a : Arena) (i j : Nat) :
    dataOf (mul a i j).1 (mul a i j).2 = dataOf a i * dataOf a j := by
  simp [mul, dataOf, getNode_append_self]

theorem dataOf_pow_out (a : Arena) (i : Nat) (p : ℤ) :
    dataOf (pow a i p).1 (pow a i p).2 = dataOf a i ^ p := by
  simp [pow, dataOf, getNode_append_self]

theorem dataOf_relu_out (a : Arena) (i : Nat) :
    dataOf (relu a i).1 (relu a i).2 = max 0 (dataOf a i) := by
  simp [relu, dataOf, getNode_append_self]

theorem dataOf_mulC_out (a : Arena) (i : Nat) (c : ℚ) (h : i < a.length) :
    dataOf (mulC a i c).1 (mulC a i c).2 = dataOf a i * c := by
  show dataOf (mul (leaf a c).1 i (leaf a c).2).1 (mul (leaf a c).1 i (leaf a c).2).2 = _
  rw [dataOf_mul_out]
  rw [dataOf, getNode_leaf_lt a c h, dataOf_leaf_out]
  rfl

-- extracting the two components of a successful backward call

theorem backward_eq (a : Arena) (root : Nat) {a2 : Arena} {topo : List Nat}
    (h : backward a root = some (a2, topo)) :
    buildTopo a (root + 1) root ⟨[], []⟩ = some ⟨(buildTopo a (root + 1) root
        ⟨[], []⟩).getD ⟨[], []⟩ |>.visited, topo⟩
    ∧ a2 = topo.reverse.foldl runBack (setGrad a root 1) := by
  unfold backward at h
  rcases hbt : buildTopo a (root + 1) root ⟨[], []⟩ with _ | st
  · rw [hbt] at h; cases h
  · rw [hbt] at h
    simp only [Option.some.injEq, Prod.mk.injEq] at h
    obtain ⟨h1, h2⟩ := h
    subst h2
    exact ⟨by simp [hbt], h1.symm⟩

theorem prevOf_backward {a : Arena} {root : Nat} {a2 : Arena} {topo : List Nat}
    (h : backward a root = some (a2, topo)) (k : Nat) :
    prevOf a2 k = prevOf a k := by
  rw [(backward_eq a root h).2, prevOf_foldl_runBack, prevOf_setGrad]

/-- Claim C2: for a node a with gradient 0, building b = a + a (the same
node as both operands) and running backward() on b leaves a with gradient
2, the sum of the two contribution paths, not 1. -/
theorem shared_subexpression_double_grad (x : ℚ) :
    gradOf ((add (leaf [] x).1 0 0).1) 0 = 0
    ∧ (backward ((add (leaf [] x).1 0 0).1) 1).map (fun r => gradOf r.1 0) = some 2
    ∧ (2 : ℚ) ≠ 1 := by
  refine ⟨rfl, ?_, by norm_num⟩
  norm_num [backward, buildTopo, runBack, addGrad, setGrad, gradOf, dataOf, bopOf, prevOf,
    getNode, add, leaf]

/-- Claim C3: for x = leaf(-2), y = leaf(3) and z = x*y + x.relu(),
running z.backward() gives z.value = -6, x.gradient = 3 (product rule 3
plus ReLU contribution 0 since x.value is nonpositive) and
y.gradient = -2. -/
theorem end_to_end_scenario :
    dataOf c3Arena 4 = -6
    ∧ (backward c3Arena 4).map (fun r => (gradOf r.1 0, gradOf r.1 1)) = some (3, -2) := by
  constructor
  · norm_num [c3Arena, add, relu, mul, leaf, dataOf, getNode, max_def]
  · norm_num [c3Arena, backward, buildTopo, runBack, addGrad, setGrad, gradOf, dataOf,
      bopOf, prevOf, getNode, add, relu, mul, leaf, max_def]

/-- Claim C5: relu produces a node whose value is max(0, input); its
backward rule adds (1 if input positive else 0) * out.grad to the input
gradient, with a strict positivity test; in particular backward() through
relu of a zero leaf leaves the leaf gradient at 0. -/
theorem relu_forward_and_rule :
    (∀ (a : Arena) (i : Nat), dataOf (relu a i).1 (relu a i).2 = max 0 (dataOf a i))
    ∧ (∀ (a : Arena) (i j : Nat), bopOf a i = .brelu j →
        runBack a i = addGrad a j ((if 0 < dataOf a j then (1 : ℚ) else 0) * gradOf a i))
    ∧ (backward (relu (leaf [] 0).1 0).1 1).map (fun r => gradOf r.1 0) = some 0 := by
  refine ⟨dataOf_relu_out, fun a i j h => by simp only [runBack, h], ?_⟩
  norm_num [backward, buildTopo, runBack, addGrad, setGrad, gradOf, dataOf, bopOf, prevOf,
    getNode, relu, leaf, max_def]

theorem relu_forward_and_rule_witness :
    runBack (relu (leaf [] 5).1 0).1 1
      = addGrad (relu (leaf [] 5).1 0).1 0
          ((if 0 < dataOf (relu (leaf [] 5).1 0).1 0 then (1 : ℚ) else 0)
            * gradOf (relu (leaf [] 5).1 0).1 1) :=
  relu_forward_and_rule.2.1 (relu (leaf [] 5).1 0).1 1 0 (by decide)

/-- Claim C6: a/b is built exactly as the manual expansion a * (b ** -1),
so its value is a.value / b.value (for b.value nonzero) and backward() on
it is the same call as backward() on the expansion; likewise a - b is
built exactly as a + (b * -1) and computes a.value - b.value. -/
theorem div_sub_match_expansion (a : Arena) (i j : Nat)
    (hi : i < a.length) (hj : j < a.length) :
    truediv a i j = divBySpec a i j
    ∧ (dataOf a j ≠ 0 →
        dataOf (truediv a i j).1 (truediv a i j).2 = dataOf a i / dataOf a j)
    ∧ backward (truediv a i j).1 (truediv a i j).2
        = backward (divBySpec a i j).1 (divBySpec a i j).2
    ∧ sub a i j = subBySpec a i j
    ∧ dataOf (sub a i j).1 (sub a i j).2 = dataOf a i - dataOf a j
    ∧ backward (sub a i j).1 (sub a i j).2
        = backward (subBySpec a i j).1 (subBySpec a i j).2 := by
  refine ⟨rfl, fun _ => ?_, rfl, rfl, ?_, rfl⟩
  · show dataOf (mul (pow a j (-1)).1 i (pow a j (-1)).2).1
        (mul (pow a j (-1)).1 i (pow a j (-1)).2).2 = _
    rw [dataOf_mul_out, dataOf_pow_out]
    rw [show dataOf (pow a j (-1)).1 i = dataOf a i from by
      unfold dataOf; rw [getNode_pow_lt a j (-1) hi]]
    rw [zpow_neg_one, div_eq_mul_inv]
  · show dataOf (add (neg a j).1 i (neg a j).2).1 (add (neg a j).1 i (neg a j).2).2 = _
    rw [dataOf_add_out]
    rw [show dataOf (neg a j).1 i = dataOf a i from by
      unfold dataOf neg; rw [getNode_mulC_lt a j (-1) hi]]
    rw [show dataOf (neg a j).1 (neg a j).2 = dataOf a j * (-1) from
      dataOf_mulC_out a j (-1) hj]
    ring

theorem div_sub_match_expansion_witness :
    dataOf (truediv (leaf (leaf [] 6).1 3).1 0 1).1
      (truediv (leaf (leaf [] 6).1 3).1 0 1).2 = 2 := by
  have h := (div_sub_match_expansion (leaf (leaf [] 6).1 3).1 0 1
      (by decide) (by decide)).2.1 (by norm_num [dataOf, getNode, leaf])
  rw [h]
  norm_num [dataOf, getNode, leaf]

/-- Claim C7 records the intended behavior of the reversed literal forms.
The code of Value.__rsub__ returns self + (-other), so the Python
expression c - a evaluates to a.value - c instead of c - a.value: at
a.value = 5 and c = 3 the engine produces 2 where the claim requires -2.
This theorem evaluates the code at that failing input. -/
theorem rsub_wrong_side_eval :
    dataOf (rsub (leaf [] 5).1 0 3).1 (rsub (leaf [] 5).1 0 3).2 = 5 - 3
    ∧ (5 - 3 : ℚ) ≠ 3 - 5 := by
  constructor
  · norm_num [rsub, addC, add, leaf, dataOf, getNode]
  · norm_num

/-- Claim C8, counterexample: the claim asserts that the operands field of
a + a is the ordered pair of the two (identical) inputs, of length 2; but
_prev is a Python set, so for b = a + a it holds the single element a. -/
theorem operands_pair_counterexample :
    (getNode (add (leaf [] 1).1 0 0).1 (add (leaf [] 1).1 0 0).2).prev = [0]
    ∧ (getNode (add (leaf [] 1).1 0 0).1 (add (leaf [] 1).1 0 0).2).prev.length ≠ 2 := by
  decide

/-- Claim C8, amended: the operands field _prev of every node is the SET
of the operation inputs (deduplicated, so a + a records the single
operand a): empty for leaves, the single input for Power and ReLU, the
deduplicated pair for Add and Multiply; it is fixed at construction, the
graph is append-only (constructors leave every existing node untouched),
and no backward pass ever changes it. -/
theorem operands_are_set_and_fixed :
    (∀ (a : Arena) (x : ℚ), prevOf (leaf a x).1 (leaf a x).2 = [])
    ∧ (∀ (a : Arena) (i j : Nat), prevOf (add a i j).1 (add a i j).2 = [i, j].dedup)
    ∧ (∀ (a : Arena) (i j : Nat), prevOf (mul a i j).1 (mul a i j).2 = [i, j].dedup)
    ∧ (∀ (a : Arena) (i : Nat) (p : ℤ), prevOf (pow a i p).1 (pow a i p).2 = [i])
    ∧ (∀ (a : Arena) (i : Nat), prevOf (relu a i).1 (relu a i).2 = [i])
    ∧ (∀ (a : Arena) (i : Nat), prevOf (add a i i).1 (add a i i).2 = [i])
    ∧ (∀ (a : Arena) (x : ℚ) (k : Nat), k < a.length →
        getNode (leaf a x).1 k = getNode a k)
    ∧ (∀ (a : Arena) (i j k : Nat), k < a.length →
        getNode (add a i j).1 k = getNode a k)
    ∧ (∀ (a : Arena) (i j k : Nat), k < a.length →
        getNode (mul a i j).1 k = getNode a k)
    ∧ (∀ (a : Arena) (i : Nat) (p : ℤ) (k : Nat), k < a.length →
        getNode (pow a i p).1 k = getNode a k)
    ∧ (∀ (a : Arena) (i k : Nat), k < a.length →
        getNode (relu a i).1 k = getNode a k)
    ∧ (∀ (a : Arena) (i k : Nat), prevOf (runBack a i) k = prevOf a k)
    ∧ (∀ (a : Arena) (root : Nat) (a2 : Arena) (topo : List Nat),
        backward a root = some (a2, topo) → ∀ k, prevOf a2 k = prevOf a k) := by
  refine ⟨?_, ?_, ?_, ?_, ?_, ?_,
    fun a x k h => getNode_leaf_lt a x h,
    fun a i j k h => getNode_add_lt a i j h,
    fun a i j k h => getNode_mul_lt a i j h,
    fun a i p k h => getNode_pow_lt a i p h,
    fun a i k h => getNode_relu_lt a i h,
    fun a i k => prevOf_runBack a i k,
    fun a root a2 topo h k => prevOf_backward h k⟩
  · intro a x; simp [leaf, prevOf, getNode_append_self]
  · intro a i j; simp [add, prevOf, getNode_append_self]
  · intro a i j; simp [mul, prevOf, getNode_append_self]
  · intro a i p; simp [pow, prevOf, getNode_append_self]
  · intro a i; simp [relu, prevOf, getNode_append_self]
  · intro a i; simp [add, prevOf, getNode_append_self, List.dedup_cons_of_mem]

theorem operands_are_set_and_fixed_witness :
    getNode (add (leaf [] 1).1 0 0).1 0 = getNode (leaf [] 1).1 0 :=
  operands_are_set_and_fixed.2.2.2.2.2.2.2.1 (leaf [] 1).1 0 0 0 (by decide)

/-- Claim C9: add and multiply fail exactly on operands that are neither
nodes nor numeric literals, with an error message naming the operation
and the operand type; pow fails exactly on non-numeric exponents; every
error is returned directly and no error path (nor any success path)
modifies an existing node. -/
theorem dynamic_operand_errors :
    (∀ (a : Arena) (i : Nat) (o : PyVal),
        (∃ e, addDyn a i o = .error e) ↔ ∃ ty, o = .other ty)
    ∧ (∀ (a : Arena) (i : Nat) (ty : String), addDyn a i (.other ty)
        = .error ("Can\x27t add an instance of type Value with an instance of type " ++ ty))
    ∧ (∀ (a : Arena) (i : Nat) (o : PyVal),
        (∃ e, mulDyn a i o = .error e) ↔ ∃ ty, o = .other ty)
    ∧ (∀ (a : Arena) (i : Nat) (ty : String), mulDyn a i (.other ty)
        = .error ("Can\x27t multiply an instance of type Value with an instance of type " ++ ty))
    ∧ (∀ (a : Arena) (i : Nat) (p : PyExp),
        (∃ e, powDyn a i p = .error e) ↔ ∀ q, p ≠ .num q)
    ∧ (∀ (a : Arena) (i : Nat) (ty : String), powDyn a i (.other ty)
        = .error ("Can\x27t raise an instance of type Value to an instance of type " ++ ty))
    ∧ (∀ (a : Arena) (i j : Nat), powDyn a i (.node j)
        = .error ("Can\x27t raise an instance of type Value to an instance of type " ++ "Value"))
    ∧ (∀ (a : Arena) (i : Nat) (o : PyVal) (r : Arena × Nat), addDyn a i o = .ok r →
        ∀ k, k < a.length → getNode r.1 k = getNode a k)
    ∧ (∀ (a : Arena) (i : Nat) (o : PyVal) (r : Arena × Nat), mulDyn a i o = .ok r →
        ∀ k, k < a.length → getNode r.1 k = getNode a k)
    ∧ (∀ (a : Arena) (i : Nat) (p : PyExp) (r : Arena × Nat), powDyn a i p = .ok r →
        ∀ k, k < a.length → getNode r.1 k = getNode a k) := by
  refine ⟨?_, fun a i ty => rfl, ?_, fun a i ty => rfl, ?_, fun a i ty => rfl,
    fun a i j => rfl, ?_, ?_, ?_⟩
  · intro a i o; cases o <;> simp [addDyn]
  · intro a i o; cases o <;> simp [mulDyn]
  · intro a i p
    constructor
    · rintro ⟨e, he⟩ q rfl
      simp [powDyn] at he
    · intro h
      cases p with
      | node j => exact ⟨_, rfl⟩
      | num q => exact absurd rfl (h q)
      | other ty => exact ⟨_, rfl⟩
  · intro a i o r h k hk
    cases o with
    | node j => cases h; exact getNode_add_lt a i j hk
    | num x => cases h; exact getNode_addC_lt a i x hk
    | other ty => cases h
  · intro a i o r h k hk
    cases o with
    | node j => cases h; exact getNode_mul_lt a i j hk
    | num x => cases h; exact getNode_mulC_lt a i x hk
    | other ty => cases h
  · intro a i p r h k hk
    cases p with
    | node j => cases h
    | num q => cases h; exact getNode_pow_lt a i q hk
    | other ty => cases h

theorem dynamic_operand_errors_witness :
    getNode (add (leaf [] 1).1 0 0).1 0 = getNode (leaf [] 1).1 0 ∧ 0 < (leaf [] 1).1.length :=
  ⟨dynamic_operand_errors.2.2.2.2.2.2.2.1 (leaf [] 1).1 0 (.node 0)
    (add (leaf [] 1).1 0 0) rfl 0 (by decide), by decide⟩

-- the depth-first topological-order construction

theorem prev_lt_of_WF {a : Arena} (hwf : WF a) {v : Nat} (hv : v < a.length)
    {j : Nat} (hj : j ∈ prevOf a v) : j < v := by
  obtain ⟨hprev, hbound⟩ := hwf v hv
  unfold prevOf at hj
  rw [hprev] at hj
  exact hbound j (List.mem_dedup.mp hj)

theorem mem_prev_iff_operands {a : Arena} (hwf : WF a) {v : Nat} (hv : v < a.length)
    (m : Nat) : m ∈ prevOf a v ↔ m ∈ operandsOf (bopOf a v) := by
  unfold prevOf bopOf
  rw [(hwf v hv).1, List.mem_dedup]

theorem orderOK_nil (a : Arena) : OrderOK a [] := by
  intro q j hq
  simp at hq

theorem orderOK_append {a : Arena} {l : List Nat} {v : Nat}
    (h : OrderOK a l) (hv : ∀ m ∈ prevOf a v, m ∈ l) : OrderOK a (l ++ [v]) := by
  intro q j hq m hm
  rcases lt_trichotomy q l.length with hlt | heq | hgt
  · rw [List.getElem?_append_left hlt] at hq
    obtain ⟨p, hp, hpm⟩ := h q j hq m hm
    exact ⟨p, hp, by rw [List.getElem?_append_left (hp.trans hlt)]; exact hpm⟩
  · subst heq
    rw [List.getElem?_concat_length] at hq
    cases hq
    obtain ⟨p, hpl⟩ := List.mem_iff_getElem?.mp (hv m hm)
    have hplen : p < l.length := (List.getElem?_eq_some_iff.mp hpl).1
    exact ⟨p, hplen, by rw [List.getElem?_append_left hplen]; exact hpl⟩
  · rw [List.getElem?_eq_none (by simp; omega)] at hq
    cases hq

theorem orderOK_closed {a : Arena} {l : List Nat} (h : OrderOK a l) :
    ∀ j ∈ l, ∀ m ∈ prevOf a j, m ∈ l := by
  intro j hj m hm
  obtain ⟨q, hq⟩ := List.mem_iff_getElem?.mp hj
  obtain ⟨p, _, hp⟩ := h q j hq m hm
  exact List.mem_iff_getElem?.mpr ⟨p, hp⟩

theorem reach_mem_of_closed {a : Arena} {l : List Nat}
    (hcl : ∀ j ∈ l, ∀ m ∈ prevOf a j, m ∈ l) :
    ∀ {i k : Nat}, Reach a i k → i ∈ l → k ∈ l := by
  intro i k hr
  induction hr with
  | refl i => exact id
  | step hj _ ih => exact fun hi => ih (hcl _ hi _ hj)

theorem inv_init (a : Arena) : Inv a [] ⟨[], []⟩ := by
  refine ⟨List.nodup_nil, ?_, ?_, ?_, orderOK_nil a, ?_⟩ <;> simp

theorem buildTopo_succ (a : Arena) (f v : Nat) (st : TopoSt) :
    buildTopo a (f + 1) v st =
      if v ∈ st.visited then some st
      else ((prevOf a v).foldlM (fun s c => buildTopo a f c s)
            ⟨v :: st.visited, st.topo⟩).bind
            fun st2 => some ⟨st2.visited, st2.topo ++ [v]⟩ := rfl

theorem listSpec_of_nodeSpec {a : Arena} {f : Nat} (hn : NodeSpec a f) : ListSpec a f := by
  intro js
  induction js with
  | nil =>
    intro G st st' hjs hInv h
    cases h
    exact ⟨hInv, fun k hk => hk, ⟨[], by simp, by simp⟩, by simp⟩
  | cons j js ih =>
    intro G st st' hjs hInv h
    rw [List.foldlM_cons] at h
    rcases hb : buildTopo a f j st with _ | stm
    · rw [hb] at h
      exact Option.noConfusion h
    · rw [hb] at h
      replace h : js.foldlM (fun s c => buildTopo a f c s) stm = some st' := h
      obtain ⟨hj1, hj2⟩ := hjs j (List.mem_cons_self j js)
      obtain ⟨hInvm, hmono1, ⟨d1, hd1, hd1b⟩, hjm⟩ := hn j G st stm hj1 hj2 hInv hb
      obtain ⟨hInv2, hmono2, ⟨d2, hd2, hd2b⟩, hall⟩ :=
        ih G stm st' (fun x hx => hjs x (List.mem_cons_of_mem j hx)) hInvm h
      refine ⟨hInv2, fun k hk => hmono2 k (hmono1 k hk), ⟨d1 ++ d2, ?_, ?_⟩, ?_⟩
      · rw [hd2, hd1, List.append_assoc]
      · intro k hk
        rcases List.mem_append.mp hk with hk1 | hk2
        · obtain ⟨hle, hr⟩ := hd1b k hk1
          exact ⟨j, List.mem_cons_self j js, hle, hr⟩
        · obtain ⟨x, hx, hle, hr⟩ := hd2b k hk2
          exact ⟨x, List.mem_cons_of_mem j hx, hle, hr⟩
      · intro x hx
        rcases List.mem_cons.mp hx with rfl | hx2
        · rw [hd2]
          exact List.mem_append_left d2 hjm
        · exact hall x hx2

theorem nodeSpec_zero (a : Arena) : NodeSpec a 0 := by
  intro v G st st' _ _ _ h
  exact Option.noConfusion h

theorem nodeSpec_succ {a : Arena} {f : Nat} (hwf : WF a) (hl : ListSpec a f) :
    NodeSpec a (f + 1) := by
  intro v G st st' hv hG hInv h
  obtain ⟨hnd, hvt, htv, hGv, hord, hGt⟩ := hInv
  rw [buildTopo_succ] at h
  by_cases hvis : v ∈ st.visited
  · rw [if_pos hvis] at h
    cases h
    refine ⟨⟨hnd, hvt, htv, hGv, hord, hGt⟩, fun k hk => hk, ⟨[], by simp, by simp⟩, ?_⟩
    rcases hvt v hvis with hvtopo | hvG
    · exact hvtopo
    · exact absurd (hG v hvG) (lt_irrefl v)
  · rw [if_neg hvis] at h
    rcases hfold : (prevOf a v).foldlM (fun s c => buildTopo a f c s)
        ⟨v :: st.visited, st.topo⟩ with _ | st2
    · rw [hfold] at h
      exact Option.noConfusion h
    · rw [hfold] at h
      have h2 : (⟨st2.visited, st2.topo ++ [v]⟩ : TopoSt) = st' := Option.some.inj h
      subst h2
      have hvnotin : v ∉ st.topo := fun hmem => hvis (htv v hmem)
      have hchild : ∀ j ∈ prevOf a v, j < v := fun j hj => prev_lt_of_WF hwf hv hj
      have hInv1 : Inv a (v :: G) ⟨v :: st.visited, st.topo⟩ := by
        refine ⟨hnd, ?_, ?_, ?_, hord, ?_⟩
        · intro k hk
          rcases List.mem_cons.mp hk with rfl | hk2
          · exact Or.inr (List.mem_cons_self _ _)
          · exact (hvt k hk2).imp id (List.mem_cons_of_mem v)
        · intro k hk
          exact List.mem_cons_of_mem v (htv k hk)
        · intro k hk
          rcases List.mem_cons.mp hk with rfl | hk2
          · exact List.mem_cons_self _ _
          · exact List.mem_cons_of_mem v (hGv k hk2)
        · intro k hk
          rcases List.mem_cons.mp hk with rfl | hk2
          · exact hvnotin
          · exact hGt k hk2
      have hjs : ∀ j ∈ prevOf a v, j < a.length ∧ ∀ g ∈ v :: G, j < g := by
        intro j hj
        refine ⟨(hchild j hj).trans hv, ?_⟩
        intro g hg
        rcases List.mem_cons.mp hg with rfl | hg2
        · exact hchild j hj
        · exact (hchild j hj).trans (hG g hg2)
      obtain ⟨⟨hnd2, hvt2, htv2, hGv2, hord2, hGt2⟩, hmono, ⟨d1, hd1, hd1b⟩, hall⟩ :=
        hl (prevOf a v) (v :: G) ⟨v :: st.visited, st.topo⟩ st2 hjs hInv1 hfold
      have hvd1 : v ∉ d1 := by
        intro hvd
        obtain ⟨j, hj, hle, _⟩ := hd1b v hvd
        exact absurd (lt_of_le_of_lt hle (hchild j hj)) (lt_irrefl v)
      have hvtopo2 : v ∉ st2.topo := by
        rw [hd1]
        intro hmem
        rcases List.mem_append.mp hmem with h1 | h2
        · exact hvnotin h1
        · exact hvd1 h2
      refine ⟨⟨?_, ?_, ?_, ?_, ?_, ?_⟩, ?_, ⟨d1 ++ [v], ?_, ?_⟩, ?_⟩
      · exact List.nodup_append.mpr ⟨hnd2, List.nodup_singleton v,
          fun x hx hxv => hvtopo2 ((List.mem_singleton.mp hxv) ▸ hx)⟩
      · intro k hk
        rcases hvt2 k hk with hk1 | hk2
        · exact Or.inl (List.mem_append_left [v] hk1)
        · rcases List.mem_cons.mp hk2 with rfl | hk3
          · exact Or.inl (List.mem_append_right _ (List.mem_singleton_self _))
          · exact Or.inr hk3
      · intro k hk
        rcases List.mem_append.mp hk with hk1 | hk2
        · exact htv2 k hk1
        · rw [List.mem_singleton.mp hk2]
          exact hmono v (List.mem_cons_self v st.visited)
      · intro k hk
        exact hGv2 k (List.mem_cons_of_mem v hk)
      · exact orderOK_append hord2 hall
      · intro k hk hkmem
        rcases List.mem_append.mp hkmem with h1 | h2
        · exact hGt2 k (List.mem_cons_of_mem v hk) h1
        · rw [List.mem_singleton.mp h2] at hk
          exact absurd (hG v hk) (lt_irrefl v)
      · intro k hk
        exact hmono k (List.mem_cons_of_mem v hk)
      · show st2.topo ++ [v] = st.topo ++ (d1 ++ [v])
        rw [hd1, List.append_assoc]
      · intro k hk
        rcases List.mem_append.mp hk with hk1 | hk2
        · obtain ⟨j, hj, hle, hr⟩ := hd1b k hk1
          exact ⟨le_of_lt (lt_of_le_of_lt hle (hchild j hj)), Reach.step hj hr⟩
        · rw [List.mem_singleton.mp hk2]
          exact ⟨le_refl v, Reach.refl v⟩
      · exact List.mem_append_right _ (List.mem_singleton_self v)

theorem nodeSpec_all {a : Arena} (hwf : WF a) : ∀ f, NodeSpec a f
  | 0 => nodeSpec_zero a
  | f + 1 => nodeSpec_succ hwf (listSpec_of_nodeSpec (nodeSpec_all hwf f))

theorem listTotal_of_nodeTotal {a : Arena} {f : Nat} (hn : NodeTotal a f) : ListTotal a f := by
  intro js
  induction js with
  | nil => intro st _; rfl
  | cons j js ih =>
    intro st hjs
    rw [List.foldlM_cons]
    obtain ⟨hj1, hj2⟩ := hjs j (List.mem_cons_self j js)
    obtain ⟨stm, hstm⟩ := Option.isSome_iff_exists.mp (hn j st hj1 hj2)
    rw [hstm]
    exact ih stm (fun x hx => hjs x (List.mem_cons_of_mem j hx))

theorem nodeTotal_succ {a : Arena} {f : Nat} (hwf : WF a) (ht : NodeTotal a f) :
    NodeTotal a (f + 1) := by
  intro v st hv hvf
  rw [buildTopo_succ]
  by_cases hvis : v ∈ st.visited
  · rw [if_pos hvis]
    rfl
  · rw [if_neg hvis]
    have hjs : ∀ j ∈ prevOf a v, j < a.length ∧ j < f := by
      intro j hj
      have hjv := prev_lt_of_WF hwf hv hj
      exact ⟨hjv.trans hv, lt_of_lt_of_le hjv (Nat.lt_succ_iff.mp hvf)⟩
    obtain ⟨st2, hst2⟩ := Option.isSome_iff_exists.mp
      (listTotal_of_nodeTotal ht (prevOf a v) ⟨v :: st.visited, st.topo⟩ hjs)
    rw [hst2]
    rfl

theorem nodeTotal_all {a : Arena} (hwf : WF a) : ∀ f, NodeTotal a f
  | 0 => fun v _ _ h => absurd h (Nat.not_lt_zero v)
  | f + 1 => nodeTotal_succ hwf (nodeTotal_all hwf f)

/-- Claim C10: on every graph built through the public operations (an
append-only, hence acyclic and finite, arena), backward() terminates: the
depth-first construction succeeds within the available recursion depth
and the returned order visits every node reachable from the root exactly
once. -/
theorem backward_terminates (a : Arena) (root : Nat)
    (hwf : WF a) (hroot : root < a.length) :
    ∃ a2 topo, backward a root = some (a2, topo)
      ∧ topo.Nodup ∧ (∀ k, Reach a root k → k ∈ topo) := by
  obtain ⟨st, hst⟩ := Option.isSome_iff_exists.mp
    (nodeTotal_all hwf (root + 1) root ⟨[], []⟩ hroot (Nat.lt_succ_self root))
  obtain ⟨⟨hnd, hvt, htv, hGmem, hord, hGt⟩, hmono, ⟨d, hd, hdb⟩, hrm⟩ :=
    nodeSpec_all hwf (root + 1) root [] ⟨[], []⟩ st hroot (by simp) (inv_init a) hst
  refine ⟨st.topo.reverse.foldl runBack (setGrad a root 1), st.topo, ?_, hnd, ?_⟩
  · unfold backward
    rw [hst]
  · intro k hk
    exact reach_mem_of_closed (orderOK_closed hord) hk hrm

theorem backward_terminates_witness :
    ∃ a2 topo, backward ((add (leaf [] 1).1 0 0).1) 1 = some (a2, topo)
      ∧ topo.Nodup ∧ (∀ k, Reach ((add (leaf [] 1).1 0 0).1) 1 k → k ∈ topo) :=
  backward_terminates ((add (leaf [] 1).1 0 0).1) 1 (by decide) (by decide)

/-- Claim C1: the list returned by backward(root) is a topological order
of the graph reachable from root: no node occurs twice (even when it is
reachable along several paths), every operand of each entry occurs at a
strictly earlier index, and the list covers exactly the nodes reachable
from root. -/
theorem backward_topological_order (a : Arena) (root : Nat) (a2 : Arena)
    (topo : List Nat) (hwf : WF a) (hroot : root < a.length)
    (h : backward a root = some (a2, topo)) :
    topo.Nodup
    ∧ (∀ (q j : Nat), topo[q]? = some j →
        ∀ m ∈ operandsOf (bopOf a j), ∃ p : Nat, p < q ∧ topo[p]? = some m)
    ∧ (∀ k, Reach a root k → k ∈ topo)
    ∧ (∀ k ∈ topo, Reach a root k) := by
  rcases hst : buildTopo a (root + 1) root ⟨[], []⟩ with _ | st
  · unfold backward at h
    rw [hst] at h
    exact Option.noConfusion h
  · unfold backward at h
    rw [hst] at h
    have htopo : st.topo = topo := congrArg Prod.snd (Option.some.inj h)
    obtain ⟨⟨hnd, hvt, htv, hGmem, hord, hGt⟩, hmono, ⟨d, hd, hdb⟩, hrm⟩ :=
      nodeSpec_all hwf (root + 1) root [] ⟨[], []⟩ st hroot (by simp) (inv_init a) hst
    rw [htopo] at hnd hord hrm hd
    simp only [List.nil_append] at hd
    refine ⟨hnd, ?_, ?_, ?_⟩
    · intro q j hq m hm
      have hjmem : j ∈ topo := List.mem_iff_getElem?.mpr ⟨q, hq⟩
      have hjlen : j < a.length := by
        have hjd := hdb j (hd ▸ hjmem)
        exact lt_of_le_of_lt hjd.1 hroot
      exact hord q j hq m ((mem_prev_iff_operands hwf hjlen m).mpr hm)
    · intro k hk
      exact reach_mem_of_closed (orderOK_closed hord) hk hrm
    · intro k hk
      exact (hdb k (hd ▸ hk)).2

theorem backward_topological_order_witness :
    [0, 1].Nodup
    ∧ (∀ (q j : Nat), ([0, 1] : List Nat)[q]? = some j →
        ∀ m ∈ operandsOf (bopOf ((add (leaf [] 1).1 0 0).1) j),
          ∃ p : Nat, p < q ∧ ([0, 1] : List Nat)[p]? = some m)
    ∧ (∀ k, Reach ((add (leaf [] 1).1 0 0).1) 1 k → k ∈ [0, 1])
    ∧ (∀ k ∈ [0, 1], Reach ((add (leaf [] 1).1 0 0).1) 1 k) :=
  backward_topological_order ((add (leaf [] 1).1 0 0).1) 1
    ((([0, 1] : List Nat).reverse.foldl runBack (setGrad ((add (leaf [] 1).1 0 0).1) 1 1)))
    [0, 1] (by decide) (by decide) (by rfl)

-- gradients are only accumulated, never overwritten, during a pass

theorem pushes_targets (a : Arena) (i : Nat) :
    ∀ q ∈ pushes a i, q.1 ∈ operandsOf (bopOf a i) := by
  cases hb : bopOf a i <;> simp [pushes, hb, operandsOf]

theorem runBack_eq_applyPushes {a : Arena} {i : Nat}
    (h : ∀ j ∈ operandsOf (bopOf a i), j ≠ i) :
    runBack a i = applyPushes a (pushes a i) := by
  cases hb : bopOf a i with
  | bnone => simp [runBack, pushes, hb, applyPushes]
  | badd j k =>
      have hj : j ≠ i := h j (by rw [hb]; exact List.mem_cons_self _ _)
      simp only [runBack, pushes, hb, applyPushes, List.foldl_cons, List.foldl_nil]
      rw [gradOf_addGrad_ne (Ne.symm hj)]
  | bmul j k =>
      have hj : j ≠ i := h j (by rw [hb]; exact List.mem_cons_self _ _)
      simp only [runBack, pushes, hb, applyPushes, List.foldl_cons, List.foldl_nil]
      rw [gradOf_addGrad_ne (Ne.symm hj), dataOf_addGrad]
  | bpow j p =>
      simp only [runBack, pushes, hb, applyPushes, List.foldl_cons, List.foldl_nil]
  | brelu j =>
      simp only [runBack, pushes, hb, applyPushes, List.foldl_cons, List.foldl_nil]

theorem sumFor_nil (k : Nat) : sumFor k [] = 0 := rfl

theorem sumFor_cons (k t : Nat) (c : ℚ) (ps : List (Nat × ℚ)) :
    sumFor k ((t, c) :: ps) = (if t = k then c else 0) + sumFor k ps := by
  by_cases h : t = k
  · simp [sumFor, List.filter_cons, h]
  · simp [sumFor, List.filter_cons, h]

theorem sumFor_append (k : Nat) (ps qs : List (Nat × ℚ)) :
    sumFor k (ps ++ qs) = sumFor k ps + sumFor k qs := by
  simp [sumFor, List.filter_append]

theorem sumFor_eq_zero {k : Nat} {ps : List (Nat × ℚ)} (h : ∀ q ∈ ps, q.1 ≠ k) :
    sumFor k ps = 0 := by
  induction ps with
  | nil => rfl
  | cons q ps ih =>
    rcases q with ⟨t, c⟩
    rw [sumFor_cons, if_neg (h (t, c) (List.mem_cons_self _ _)),
      ih (fun x hx => h x (List.mem_cons_of_mem _ hx))]
    ring

theorem gradOf_applyPushes (ps : List (Nat × ℚ)) :
    ∀ (a : Arena), (∀ q ∈ ps, q.1 < a.length) →
      ∀ k, gradOf (applyPushes a ps) k = gradOf a k + sumFor k ps := by
  induction ps with
  | nil => intro a _ k; simp [applyPushes, sumFor_nil]
  | cons q ps ih =>
    intro a hps k
    rcases q with ⟨t, c⟩
    have ht : t < a.length := hps (t, c) (List.mem_cons_self _ _)
    have h1 : applyPushes a ((t, c) :: ps) = applyPushes (addGrad a t c) ps := rfl
    rw [h1, ih (addGrad a t c)
      (fun x hx => by rw [length_addGrad]; exact hps x (List.mem_cons_of_mem _ hx)) k,
      sumFor_cons]
    by_cases hk : k = t
    · subst hk
      rw [gradOf_addGrad_self ht, if_pos rfl]
      ring
    · rw [gradOf_addGrad_ne hk, if_neg (fun he => hk he.symm)]
      ring

theorem WF_setGrad (a : Arena) (i : Nat) (g : ℚ) (hwf : WF a) : WF (setGrad a i g) := by
  intro k hk
  rw [length_setGrad] at hk
  have h := hwf k hk
  unfold NodeWF at h ⊢
  rw [show (getNode (setGrad a i g) k).prev = (getNode a k).prev from prevOf_setGrad a i g k,
      show (getNode (setGrad a i g) k).bop = (getNode a k).bop from bopOf_setGrad a i g k]
  exact h

theorem WF_runBack (a : Arena) (i : Nat) (hwf : WF a) : WF (runBack a i) := by
  intro k hk
  rw [length_runBack] at hk
  have h := hwf k hk
  unfold NodeWF at h ⊢
  rw [show (getNode (runBack a i) k).prev = (getNode a k).prev from prevOf_runBack a i k,
      show (getNode (runBack a i) k).bop = (getNode a k).bop from bopOf_runBack a i k]
  exact h

theorem gradOf_foldl_runBack_pushes :
    ∀ (l : List Nat) (a : Arena), WF a → (∀ i ∈ l, i < a.length) →
      ∀ k, gradOf (l.foldl runBack a) k = gradOf a k + sumFor k (allPushes a l) := by
  intro l
  induction l with
  | nil => intro a _ _ k; simp [allPushes, sumFor_nil]
  | cons i t ih =>
    intro a hwf hl k
    have hi : i < a.length := hl i (List.mem_cons_self _ _)
    have hne : ∀ j ∈ operandsOf (bopOf a i), j ≠ i :=
      fun j hj => Nat.ne_of_lt ((hwf i hi).2 j hj)
    have htarg : ∀ q ∈ pushes a i, q.1 < a.length :=
      fun q hq => lt_trans ((hwf i hi).2 q.1 (pushes_targets a i q hq)) hi
    have hrb : runBack a i = applyPushes a (pushes a i) := runBack_eq_applyPushes hne
    rw [List.foldl_cons,
      ih (runBack a i) (WF_runBack a i hwf)
        (fun x hx => by rw [length_runBack]; exact hl x (List.mem_cons_of_mem _ hx)) k,
      show allPushes a (i :: t) = pushes a i ++ allPushes (runBack a i) t from rfl,
      sumFor_append, hrb, gradOf_applyPushes (pushes a i) a htarg k]
    ring

theorem allPushes_targets :
    ∀ (l : List Nat) (a : Arena), WF a → (∀ i ∈ l, i < a.length) →
      ∀ q ∈ allPushes a l, ∃ i ∈ l, q.1 < i := by
  intro l
  induction l with
  | nil => intro a _ _ q hq; simp [allPushes] at hq
  | cons i t ih =>
    intro a hwf hl q hq
    have hi : i < a.length := hl i (List.mem_cons_self _ _)
    rcases List.mem_append.mp hq with h1 | h2
    · exact ⟨i, List.mem_cons_self _ _, (hwf i hi).2 q.1 (pushes_targets a i q h1)⟩
    · obtain ⟨x, hx, hlt⟩ := ih (runBack a i) (WF_runBack a i hwf)
        (fun y hy => by rw [length_runBack]; exact hl y (List.mem_cons_of_mem _ hy)) q h2
      exact ⟨x, List.mem_cons_of_mem _ hx, hlt⟩

/-- Claim C4: backward(root) seeds the root gradient to exactly 1 before
the traversal; every other node gradient is then only additively
accumulated, never overwritten and never implicitly reset: at the end of
the pass it equals its call-time value plus the sum of the contributions
pushed onto it during the traversal.  No contribution ever targets the
root, which therefore ends the pass at exactly 1. -/
theorem backward_grad_accumulation (a : Arena) (root : Nat) (a2 : Arena)
    (topo : List Nat) (hwf : WF a) (hroot : root < a.length)
    (h : backward a root = some (a2, topo)) :
    gradOf (setGrad a root 1) root = 1
    ∧ a2 = topo.reverse.foldl runBack (setGrad a root 1)
    ∧ (∀ k, k ≠ root →
        gradOf a2 k = gradOf a k
          + sumFor k (allPushes (setGrad a root 1) topo.reverse))
    ∧ gradOf a2 root = 1 := by
  have ha2 := (backward_eq a root h).2
  rcases hst : buildTopo a (root + 1) root ⟨[], []⟩ with _ | st
  · unfold backward at h
    rw [hst] at h
    exact Option.noConfusion h
  have htopo : st.topo = topo := by
    unfold backward at h
    rw [hst] at h
    exact congrArg Prod.snd (Option.some.inj h)
  obtain ⟨_, _, ⟨d, hd, hdb⟩, _⟩ :=
    nodeSpec_all hwf (root + 1) root [] ⟨[], []⟩ st hroot (by simp) (inv_init a) hst
  rw [htopo] at hd
  simp only [List.nil_append] at hd
  have hbound : ∀ i ∈ topo, i ≤ root ∧ i < a.length := by
    intro i hi
    have hx := hdb i (hd ▸ hi)
    exact ⟨hx.1, lt_of_le_of_lt hx.1 hroot⟩
  have hwf1 : WF (setGrad a root 1) := WF_setGrad a root 1 hwf
  have hrevb : ∀ i ∈ topo.reverse, i < (setGrad a root 1).length := by
    intro i hi
    rw [length_setGrad]
    exact (hbound i (List.mem_reverse.mp hi)).2
  have hmain := gradOf_foldl_runBack_pushes topo.reverse (setGrad a root 1) hwf1 hrevb
  refine ⟨gradOf_setGrad_self hroot 1, ha2, ?_, ?_⟩
  · intro k hk
    rw [ha2, hmain k, gradOf_setGrad_ne hk]
  · rw [ha2, hmain root, gradOf_setGrad_self hroot 1]
    have hz : sumFor root (allPushes (setGrad a root 1) topo.reverse) = 0 := by
      apply sumFor_eq_zero
      intro q hq
      obtain ⟨i, hi, hlt⟩ := allPushes_targets topo.reverse (setGrad a root 1) hwf1 hrevb q hq
      exact Nat.ne_of_lt (lt_of_lt_of_le hlt (hbound i (List.mem_reverse.mp hi)).1)
    rw [hz]
    ring

theorem backward_grad_accumulation_witness :
    gradOf ((([0, 1] : List Nat).reverse).foldl runBack
      (setGrad ((add (leaf [] 1).1 0 0).1) 1 1)) 1 = 1 :=
  (backward_grad_accumulation ((add (leaf [] 1).1 0 0).1) 1
    ((([0, 1] : List Nat).reverse).foldl runBack (setGrad ((add (leaf [] 1).1 0 0).1) 1 1))
    [0, 1] (by decide) (by decide) (by rfl)).2.2.2

end Micrograd
